import Mathlib

/-!
Verification of a consistent hash ring.

Shallow embedding of `consistenthash.go`: a consistent hash ring storing a
map from 32-bit hash positions to node identifiers (`nodes`) together with a
sorted list of positions (`hashRing`).  Machine `uint32` values are modelled
as `Nat` (all operations stay below `2^32`, proved below).  The Go map is
modelled as an association list without duplicate keys; the sorting call
`sort.Slice` (whose contract is: the slice becomes a permutation of itself
sorted by the comparator) is modelled by `List.insertionSort`, and
`sort.Search` by its binary-search loop, with an explicit iteration bound
`fuel` standing in for Go's termination argument (`j - i` shrinks every
iteration, so `n` iterations always suffice).
-/

set_option maxRecDepth 40000

namespace ConsistentHashRing

/-! ## The hash function: CRC-32 with the IEEE polynomial (reflected form) -/

/-- The reversed IEEE CRC-32 polynomial used by `hash/crc32.ChecksumIEEE`. -/
def crc32Poly : Nat := 0xEDB88320

/-- One bit-step of the reflected CRC-32 algorithm. -/
def crc32Step (crc : Nat) : Nat :=
  if crc % 2 = 1 then (crc / 2) ^^^ crc32Poly else crc / 2

/-- Fold one input byte into the CRC state: xor it in, then run 8 bit-steps. -/
def crc32Byte (crc b : Nat) : Nat :=
  crc32Step^[8] (crc ^^^ (b % 256))

/-- CRC-32/IEEE checksum of a byte sequence:
initial state `0xFFFFFFFF`, fold every byte, final complement. -/
def crc32 (bytes : List Nat) : Nat :=
  (bytes.foldl crc32Byte 0xFFFFFFFF) ^^^ 0xFFFFFFFF

/-- Standard UTF-8 encoding of a unicode scalar value (Go's `[]byte(key)`
yields the UTF-8 bytes of the string). -/
def utf8Enc (c : Nat) : List Nat :=
  if c < 0x80 then [c]
  else if c < 0x800 then [0xC0 ||| (c >>> 6), 0x80 ||| (c &&& 0x3F)]
  else if c < 0x10000 then
    [0xE0 ||| (c >>> 12), 0x80 ||| ((c >>> 6) &&& 0x3F), 0x80 ||| (c &&& 0x3F)]
  else
    [0xF0 ||| (c >>> 18), 0x80 ||| ((c >>> 12) &&& 0x3F),
     0x80 ||| ((c >>> 6) &&& 0x3F), 0x80 ||| (c &&& 0x3F)]

/-- The UTF-8 byte representation of a string, as naturals `< 256`. -/
def strBytes (s : String) : List Nat :=
  s.data.flatMap (fun ch => utf8Enc ch.toNat)

/-- The `hashKey` method from the source: `crc32.ChecksumIEEE([]byte(key))`. -/
def hashKey (key : String) : Nat :=
  crc32 (strBytes key)

/-! ## Ring state -/

/-- The `ConsistentHash` struct: `nodes map[uint32]string` modelled as an
association list (no duplicate keys in any reachable state), and
`hashRing []uint32`, the sorted list of positions.  The mutex field is
not modelled: the embedding is sequential. -/
structure ConsistentHash where
  nodes : List (Nat × String)
  hashRing : List Nat
deriving DecidableEq, Repr

/-- Unexported `addNode`: no-op when the hash is already a key of the map,
otherwise insert the binding and re-sort the position list
(`sort.Slice(h.hashRing, ...)` with comparator `<`). -/
def addNode (h : ConsistentHash) (nodeID : String) : ConsistentHash :=
  let hash := hashKey nodeID
  if (h.nodes.lookup hash).isSome then h
  else
    { nodes := h.nodes ++ [(hash, nodeID)]
      hashRing := (h.hashRing ++ [hash]).insertionSort (· ≤ ·) }

/-- Exported `AddNode` (lock acquisition elided). -/
def AddNode (h : ConsistentHash) (nodeID : String) : ConsistentHash :=
  addNode h nodeID

/-- The constructor `New`: start from the empty ring and add every identifier in order. -/
def New (nodeIDs : List String) : ConsistentHash :=
  nodeIDs.foldl addNode { nodes := [], hashRing := [] }

/-- The removal loop of `RemoveNode`: delete the first occurrence of
`hash` from the slice, then `break`. -/
def removeFirst (hash : Nat) : List Nat → List Nat
  | [] => []
  | v :: rest => if v = hash then rest else v :: removeFirst hash rest

/-- The method `RemoveNode`: no-op when the hash is not a key of the map, otherwise
delete the map entry (`delete(h.nodes, hash)`, modelled as dropping every
binding of that key) and remove the first occurrence from the slice. -/
def RemoveNode (h : ConsistentHash) (nodeID : String) : ConsistentHash :=
  let hash := hashKey nodeID
  if (h.nodes.lookup hash).isSome then
    { nodes := h.nodes.filter (fun p => p.1 ≠ hash)
      hashRing := removeFirst hash h.hashRing }
  else h

/-- The loop of Go's `sort.Search`: binary search on `[i, j)` for the least
index at which the (monotone) predicate holds.  `fuel` bounds the number of
iterations; `j - i` shrinks at every iteration, so any `fuel ≥ j - i`
reproduces Go's loop exactly. -/
def searchLoop (f : Nat → Bool) : Nat → Nat → Nat → Nat
  | 0, i, _ => i
  | fuel + 1, i, j =>
    if i < j then
      let m := (i + j) / 2
      if !(f m) then searchLoop f fuel (m + 1) j else searchLoop f fuel i m
    else i

/-- Go's `sort.Search(n, f)`. -/
def sortSearch (n : Nat) (f : Nat → Bool) : Nat :=
  searchLoop f n 0 n

/-- The index `GetNode` reads after the binary search:
`idx := sort.Search(len(hashRing), func(i) { hashRing[i] >= hash })`,
then `if idx == len(hashRing) { idx = 0 }`. -/
def ringIndex (h : ConsistentHash) (hash : Nat) : Nat :=
  let idx := sortSearch h.hashRing.length
    (fun i => decide (hash ≤ h.hashRing.getD i 0))
  if idx = h.hashRing.length then 0 else idx

/-- The method `GetNode`: empty ring gives the sentinel `""`; otherwise binary-search
the sorted positions for the first position `≥ hash`, wrapping to index 0,
and return the identifier stored there (Go map read defaults to `""`). -/
def GetNode (h : ConsistentHash) (key : String) : String :=
  if h.hashRing.length = 0 then ""
  else (h.nodes.lookup (h.hashRing.getD (ringIndex h (hashKey key)) 0)).getD ""

/-- The position `GetNode` selects (the "clockwise successor" of the key's
hash), `none` on the empty ring.  `GetNode` returns the identifier the map
stores at this position. -/
def selectedPos (h : ConsistentHash) (key : String) : Option Nat :=
  if h.hashRing.length = 0 then none
  else some (h.hashRing.getD (ringIndex h (hashKey key)) 0)

/-! ## Ring invariant -/

/-- The documented state invariant: the position list is strictly ascending
(hence duplicate-free) and is, up to order, exactly the key set of the map
(which therefore has no duplicate keys either). -/
def Inv (h : ConsistentHash) : Prop :=
  h.hashRing.Pairwise (· < ·) ∧ (h.nodes.map Prod.fst).Perm h.hashRing

instance (h : ConsistentHash) : Decidable (Inv h) := by
  unfold Inv; infer_instance

/-- Ring states reachable through the public API from construction. -/
inductive Reachable : ConsistentHash → Prop
  | new (nodeIDs : List String) : Reachable (New nodeIDs)
  | add {h : ConsistentHash} (nodeID : String) :
      Reachable h → Reachable (AddNode h nodeID)
  | remove {h : ConsistentHash} (nodeID : String) :
      Reachable h → Reachable (RemoveNode h nodeID)

/-- The spec's notion of "clockwise successor": `c` is the smallest position
of `ring` that is `≥ hash`, or, when every position is `< hash`, the
smallest position of `ring` overall (wrap-around). -/
def IsSucc (hash : Nat) (ring : List Nat) (c : Nat) : Prop :=
  c ∈ ring ∧
    ((hash ≤ c ∧ ∀ q ∈ ring, hash ≤ q → c ≤ q) ∨
     ((∀ q ∈ ring, q < hash) ∧ ∀ q ∈ ring, c ≤ q))

/-! ## Helper lemmas: association-list lookup -/

theorem lookup_isSome_iff {l : List (Nat × String)} {a : Nat} :
    (l.lookup a).isSome ↔ a ∈ l.map Prod.fst := by
  induction l with
  | nil => simp [List.lookup]
  | cons p rest ih =>
    obtain ⟨k, v⟩ := p
    by_cases hk : a = k
    · subst hk; simp [List.lookup]
    · have hbk : (a == k) = false := beq_false_of_ne hk
      simp only [List.lookup, hbk, List.map_cons, List.mem_cons]
      rw [ih]
      simp [hk]

theorem lookup_eq_none_iff {l : List (Nat × String)} {a : Nat} :
    l.lookup a = none ↔ a ∉ l.map Prod.fst := by
  rw [← lookup_isSome_iff, ← Option.not_isSome_iff_eq_none]

theorem lookup_filter_ne {l : List (Nat × String)} {a b : Nat} (hab : b ≠ a) :
    (l.filter (fun p => p.1 ≠ a)).lookup b = l.lookup b := by
  induction l with
  | nil => simp
  | cons p rest ih =>
    simp only [ne_eq, decide_not] at ih ⊢
    obtain ⟨k, v⟩ := p
    rw [List.filter_cons]
    by_cases hk : k = a
    · have hf : (!decide ((k, v).1 = a)) = false := by simp [hk]
      rw [hf]
      have hbk : (b == k) = false := beq_false_of_ne (hk ▸ hab)
      simp only [if_neg Bool.false_ne_true, List.lookup, hbk, ih]
    · have hf : (!decide ((k, v).1 = a)) = true := by simp [hk]
      rw [hf, if_pos rfl]
      show List.lookup b ((k, v) :: _) = _
      cases hbe : b == k with
      | true => simp [List.lookup, hbe]
      | false => simp [List.lookup, hbe, ih]

/-! ## Helper lemmas: the removal loop and the binary search -/

theorem removeFirst_sublist (a : Nat) (l : List Nat) :
    (removeFirst a l).Sublist l := by
  induction l with
  | nil => simp [removeFirst]
  | cons v rest ih =>
    rw [removeFirst]
    by_cases hv : v = a
    · simp [hv]
    · simpa [hv] using ih.cons₂ v

theorem removeFirst_eq_filter {a : Nat} {l : List Nat} (hnd : l.Nodup) :
    removeFirst a l = l.filter (fun v => v ≠ a) := by
  induction l with
  | nil => simp [removeFirst]
  | cons v rest ih =>
    rcases List.nodup_cons.mp hnd with ⟨hv, hrest⟩
    rw [removeFirst, List.filter_cons]
    simp only [ne_eq, decide_not]
    by_cases hva : v = a
    · subst hva
      rw [if_pos rfl, if_neg (by simp)]
      symm
      refine List.filter_eq_self.mpr (fun q hq => ?_)
      simp [ne_of_mem_of_not_mem hq hv]
    · rw [if_neg hva, if_pos (by simp [hva]), ih hrest]
      simp only [ne_eq, decide_not]

theorem searchLoop_spec (f : Nat → Bool) (n : Nat)
    (hmono : ∀ a b, a ≤ b → b < n → f a = true → f b = true) :
    ∀ fuel i j, i ≤ j → j ≤ n → j - i ≤ fuel →
      (∀ x, x < i → f x = false) → (∀ x, j ≤ x → x < n → f x = true) →
      searchLoop f fuel i j ≤ n ∧
      (∀ x, x < searchLoop f fuel i j → f x = false) ∧
      (∀ x, searchLoop f fuel i j ≤ x → x < n → f x = true) := by
  intro fuel
  induction fuel with
  | zero =>
    intro i j hij hjn hfuel hlo hhi
    have hij' : i = j := by omega
    subst hij'
    exact ⟨by simpa [searchLoop] using hjn,
      by simpa [searchLoop] using hlo,
      by simpa [searchLoop] using hhi⟩
  | succ fuel ih =>
    intro i j hij hjn hfuel hlo hhi
    rw [searchLoop]
    by_cases hlt : i < j
    · rw [if_pos hlt]
      have hm1 : i ≤ (i + j) / 2 := by omega
      have hm2 : (i + j) / 2 < j := by omega
      cases hfm : f ((i + j) / 2) with
      | false =>
        simp only [hfm, Bool.not_false, if_pos rfl]
        refine ih ((i + j) / 2 + 1) j (by omega) hjn (by omega) ?_ hhi
        intro x hx
        by_cases hxi : x < i
        · exact hlo x hxi
        · by_cases hfx : f x
          · have : f ((i + j) / 2) = true :=
              hmono x ((i + j) / 2) (by omega) (by omega) hfx
            rw [this] at hfm; cases hfm
          · exact Bool.not_eq_true _ ▸ (by simpa using hfx)
      | true =>
        simp only [hfm, Bool.not_true, if_neg Bool.false_ne_true]
        refine ih i ((i + j) / 2) hm1 (by omega) (by omega) hlo ?_
        intro x hx hxn
        exact hmono ((i + j) / 2) x hx hxn hfm
    · rw [if_neg hlt]
      have hij' : i = j := by omega
      subst hij'
      exact ⟨hjn, hlo, hhi⟩

theorem sortSearch_spec (f : Nat → Bool) (n : Nat)
    (hmono : ∀ a b, a ≤ b → b < n → f a = true → f b = true) :
    sortSearch n f ≤ n ∧
    (∀ x, x < sortSearch n f → f x = false) ∧
    (∀ x, sortSearch n f ≤ x → x < n → f x = true) := by
  refine searchLoop_spec f n hmono n 0 n (Nat.zero_le n) le_rfl (by omega)
    (fun x hx => absurd hx (Nat.not_lt_zero x)) (fun x hx hxn => absurd hxn (by omega))


theorem getD_mem {ring : List Nat} {i : Nat} (hi : i < ring.length) :
    ring.getD i 0 ∈ ring := by
  rw [List.getD_eq_getElem ring 0 hi]
  exact List.getElem_mem hi

theorem pairwise_lt_getD_le {ring : List Nat} (hs : ring.Pairwise (· < ·))
    {i j : Nat} (hj : j < ring.length) (hij : i ≤ j) :
    ring.getD i 0 ≤ ring.getD j 0 := by
  rcases Nat.eq_or_lt_of_le hij with heq | hlt
  · subst heq; exact le_refl _
  · have hi : i < ring.length := lt_trans hlt hj
    rw [List.getD_eq_getElem ring 0 hi, List.getD_eq_getElem ring 0 hj]
    exact le_of_lt (List.pairwise_iff_get.mp hs ⟨i, hi⟩ ⟨j, hj⟩ hlt)

theorem isSucc_unique {hash : Nat} {ring : List Nat} {c c' : Nat}
    (h1 : IsSucc hash ring c) (h2 : IsSucc hash ring c') : c = c' := by
  obtain ⟨hc, hd1⟩ := h1
  obtain ⟨hc', hd2⟩ := h2
  rcases hd1 with ⟨hle, hmin⟩ | ⟨hall, hmin⟩ <;>
    rcases hd2 with ⟨hle', hmin'⟩ | ⟨hall', hmin'⟩
  · exact le_antisymm (hmin c' hc' hle') (hmin' c hc hle)
  · exact absurd hle (not_le_of_lt (hall' c hc))
  · exact absurd hle' (not_le_of_lt (hall c' hc'))
  · exact le_antisymm (hmin c' hc') (hmin' c hc)

theorem ringIndex_isSucc (h : ConsistentHash) (hash : Nat)
    (hs : h.hashRing.Pairwise (· < ·)) (hne : h.hashRing ≠ []) :
    IsSucc hash h.hashRing (h.hashRing.getD (ringIndex h hash) 0) := by
  set ring := h.hashRing with hring
  set n := ring.length with hn
  set f : Nat → Bool := fun i => decide (hash ≤ ring.getD i 0) with hf
  have hmono : ∀ a b, a ≤ b → b < n → f a = true → f b = true := by
    intro a b hab hb hfa
    rw [hf, decide_eq_true_eq] at hfa ⊢
    exact le_trans hfa (pairwise_lt_getD_le hs hb hab)
  obtain ⟨hr1, hr2, hr3⟩ := sortSearch_spec f n hmono
  have hnpos : 0 < n := by
    rw [hn]; exact List.length_pos.mpr hne
  have hidx : ringIndex h hash =
      if sortSearch n f = n then 0 else sortSearch n f := rfl
  by_cases hrn : sortSearch n f = n
  · rw [hidx, if_pos hrn]
    refine ⟨getD_mem hnpos, Or.inr ⟨?_, ?_⟩⟩
    · intro q hq
      obtain ⟨⟨j, hj⟩, hget⟩ := List.mem_iff_get.mp hq
      have hfj : f j = false := hr2 j (by omega)
      rw [hf, decide_eq_false_iff_not, not_le] at hfj
      have : ring.getD j 0 = q := by
        rw [List.getD_eq_getElem ring 0 hj, ← hget]; rfl
      omega
    · intro q hq
      obtain ⟨⟨j, hj⟩, hget⟩ := List.mem_iff_get.mp hq
      have : ring.getD j 0 = q := by
        rw [List.getD_eq_getElem ring 0 hj, ← hget]; rfl
      rw [← this]
      exact pairwise_lt_getD_le hs hj (Nat.zero_le j)
  · have hrlt : sortSearch n f < n := lt_of_le_of_ne hr1 hrn
    rw [hidx, if_neg hrn]
    have hfr : f (sortSearch n f) = true := hr3 _ le_rfl hrlt
    rw [hf, decide_eq_true_eq] at hfr
    refine ⟨getD_mem hrlt, Or.inl ⟨hfr, ?_⟩⟩
    intro q hq hhq
    obtain ⟨⟨j, hj⟩, hget⟩ := List.mem_iff_get.mp hq
    have hgq : ring.getD j 0 = q := by
      rw [List.getD_eq_getElem ring 0 hj, ← hget]; rfl
    by_cases hjr : j < sortSearch n f
    · have hfj : f j = false := hr2 j hjr
      rw [hf, decide_eq_false_iff_not, not_le] at hfj
      omega
    · rw [← hgq]
      exact pairwise_lt_getD_le hs hj (by omega)

theorem selectedPos_eq {h : ConsistentHash} {k : String} (hne : h.hashRing ≠ []) :
    selectedPos h k = some (h.hashRing.getD (ringIndex h (hashKey k)) 0) := by
  have : h.hashRing.length ≠ 0 := by
    simpa [List.length_eq_zero] using hne
  simp [selectedPos, this]

theorem getNode_eq {h : ConsistentHash} {k : String} (hne : h.hashRing ≠ []) :
    GetNode h k =
      (h.nodes.lookup (h.hashRing.getD (ringIndex h (hashKey k)) 0)).getD "" := by
  have : h.hashRing.length ≠ 0 := by
    simpa [List.length_eq_zero] using hne
  simp [GetNode, this]


/-! ## Helper lemmas: invariant preservation -/

theorem nodup_of_pairwise_lt {ring : List Nat} (hs : ring.Pairwise (· < ·)) :
    ring.Nodup :=
  hs.imp (fun hab => ne_of_lt hab)

theorem pairwise_lt_of_sorted_nodup {ring : List Nat}
    (hs : ring.Sorted (· ≤ ·)) (hnd : ring.Nodup) :
    ring.Pairwise (· < ·) :=
  (hs.and hnd).imp (fun hab => lt_of_le_of_ne hab.1 hab.2)

theorem inv_addNode {h : ConsistentHash} (hinv : Inv h) (x : String) :
    Inv (addNode h x) := by
  obtain ⟨hs, hperm⟩ := hinv
  rw [addNode]
  by_cases hex : (h.nodes.lookup (hashKey x)).isSome
  · simpa [hex] using ⟨hs, hperm⟩
  · rw [if_neg hex]
    have hnotkey : hashKey x ∉ h.nodes.map Prod.fst := by
      rw [← lookup_isSome_iff]; simpa using hex
    have hnotring : hashKey x ∉ h.hashRing := fun hc =>
      hnotkey (hperm.mem_iff.mpr hc)
    have hperm' : ((h.hashRing ++ [hashKey x]).insertionSort (· ≤ ·)).Perm
        (h.hashRing ++ [hashKey x]) := List.perm_insertionSort _ _
    constructor
    · refine pairwise_lt_of_sorted_nodup (List.sorted_insertionSort _ _) ?_
      refine hperm'.symm.nodup ?_
      rw [List.nodup_append]
      refine ⟨nodup_of_pairwise_lt hs, List.nodup_singleton _, ?_⟩
      intro a ha hax
      rw [List.mem_singleton] at hax
      exact hnotring (hax ▸ ha)
    · have h1 : (h.nodes ++ [(hashKey x, x)]).map Prod.fst =
          h.nodes.map Prod.fst ++ [hashKey x] := by simp
      rw [h1]
      exact (hperm.append_right _).trans hperm'.symm

theorem inv_RemoveNode {h : ConsistentHash} (hinv : Inv h) (x : String) :
    Inv (RemoveNode h x) := by
  obtain ⟨hs, hperm⟩ := hinv
  rw [RemoveNode]
  by_cases hex : (h.nodes.lookup (hashKey x)).isSome
  · simp only [hex, if_true]
    have hrf : removeFirst (hashKey x) h.hashRing =
        h.hashRing.filter (fun v => v ≠ hashKey x) :=
      removeFirst_eq_filter (nodup_of_pairwise_lt hs)
    constructor
    · rw [hrf]
      exact List.Pairwise.sublist (List.filter_sublist _) hs
    · rw [hrf]
      have : (h.nodes.filter (fun p => p.1 ≠ hashKey x)).map Prod.fst =
          (h.nodes.map Prod.fst).filter (fun v => v ≠ hashKey x) := by
        rw [List.filter_map]
        rfl
      rw [this]
      exact hperm.filter _
  · simpa [hex] using ⟨hs, hperm⟩

theorem inv_empty : Inv { nodes := [], hashRing := [] } := by
  constructor <;> simp

theorem inv_New (nodeIDs : List String) : Inv (New nodeIDs) := by
  rw [New]
  generalize hstart : ({ nodes := [], hashRing := [] } : ConsistentHash) = h0
  have h0inv : Inv h0 := hstart ▸ inv_empty
  clear hstart
  induction nodeIDs generalizing h0 with
  | nil => simpa using h0inv
  | cons x xs ih => exact ih _ (inv_addNode h0inv x)

/-- C3: Every ring state reachable from construction through any
sequence of `AddNode` / `RemoveNode` calls keeps the position list strictly
ascending (sorted without duplicates) and equal, as a set, to the key set of
the position-to-identifier map; both operations preserve the invariant. -/
theorem reachable_inv (h : ConsistentHash) (hr : Reachable h) : Inv h := by
  induction hr with
  | new nodeIDs => exact inv_New nodeIDs
  | add nodeID _ ih => exact inv_addNode ih nodeID
  | remove nodeID _ ih => exact inv_RemoveNode ih nodeID

/-- Witness for `reachable_inv` at a concrete reachable state. -/
theorem reachable_inv_witness :
    Inv (RemoveNode (AddNode (New ["node-a", "node-b"]) "node-c") "node-a") :=
  reachable_inv _ (Reachable.remove _ (Reachable.add _ (Reachable.new _)))


/-! ## Lookup claims -/

/-- C1: On a non-empty ring satisfying the state invariant, `GetNode k`
returns the identifier stored at the smallest position `≥ hash k`; when
`hash k` exceeds every position it wraps around to the smallest position
overall; when `hash k` equals a node's position, that node is returned. -/
theorem getNode_clockwise (h : ConsistentHash) (k : String)
    (hinv : Inv h) (hne : h.hashRing ≠ []) :
    ∃ c id, IsSucc (hashKey k) h.hashRing c ∧
      h.nodes.lookup c = some id ∧ GetNode h k = id ∧
      (hashKey k ∈ h.hashRing → c = hashKey k) := by
  obtain ⟨hs, hperm⟩ := hinv
  set c := h.hashRing.getD (ringIndex h (hashKey k)) 0 with hc
  have hsucc : IsSucc (hashKey k) h.hashRing c := ringIndex_isSucc h _ hs hne
  have hckey : c ∈ h.nodes.map Prod.fst := hperm.mem_iff.mpr hsucc.1
  obtain ⟨id, hid⟩ := Option.isSome_iff_exists.mp (lookup_isSome_iff.mpr hckey)
  refine ⟨c, id, hsucc, hid, ?_, ?_⟩
  · rw [getNode_eq hne, ← hc, hid]; rfl
  · intro hmem
    have hself : IsSucc (hashKey k) h.hashRing (hashKey k) :=
      ⟨hmem, Or.inl ⟨le_refl _, fun q _ hq => hq⟩⟩
    exact isSucc_unique hsucc hself

/-- Witness for `getNode_clockwise` on the three-node ring of the spec's
end-to-end scenario. -/
theorem getNode_clockwise_witness :
    ∃ c id, IsSucc (hashKey "user-123")
        (New ["node-a", "node-b", "node-c"]).hashRing c ∧
      (New ["node-a", "node-b", "node-c"]).nodes.lookup c = some id ∧
      GetNode (New ["node-a", "node-b", "node-c"]) "user-123" = id ∧
      (hashKey "user-123" ∈ (New ["node-a", "node-b", "node-c"]).hashRing →
        c = hashKey "user-123") :=
  getNode_clockwise _ _ (by decide) (by decide)

/-- C2: `GetNode` on a ring with zero positions returns the sentinel
`""` (and, being a pure function of the state, leaves the state unchanged). -/
theorem getNode_empty (h : ConsistentHash) (k : String)
    (he : h.hashRing = []) : GetNode h k = "" := by
  simp [GetNode, he]

/-- Witness for `getNode_empty`: a lookup against the freshly built empty
ring. -/
theorem getNode_empty_witness : GetNode (New []) "user-123" = "" :=
  getNode_empty _ _ (by decide)

/-! ## Mutation claims -/

/-- C4: Adding a node whose hash is already a position of the ring
leaves the state completely unchanged (first writer wins), and adding the
same identifier twice never changes the position count. -/
theorem addNode_collision_noop (h : ConsistentHash) (x : String)
    (hinv : Inv h) (hmem : hashKey x ∈ h.hashRing) :
    AddNode h x = h ∧
    ∀ y : String, (AddNode (AddNode h y) y).hashRing.length =
      (AddNode h y).hashRing.length := by
  constructor
  · have hkey : hashKey x ∈ h.nodes.map Prod.fst := hinv.2.mem_iff.mpr hmem
    have hex : (h.nodes.lookup (hashKey x)).isSome :=
      lookup_isSome_iff.mpr hkey
    rw [AddNode, addNode, if_pos hex]
  · intro y
    suffices hfix : AddNode (AddNode h y) y = AddNode h y by rw [hfix]
    have hex : ((AddNode h y).nodes.lookup (hashKey y)).isSome := by
      rw [AddNode, addNode]
      by_cases hex0 : (h.nodes.lookup (hashKey y)).isSome
      · rw [if_pos hex0]; exact hex0
      · rw [if_neg hex0]
        have h0 : h.nodes.lookup (hashKey y) = none :=
          Option.not_isSome_iff_eq_none.mp hex0
        show ((h.nodes ++ [(hashKey y, y)]).lookup (hashKey y)).isSome
        rw [List.lookup_append, h0]
        simp [List.lookup]
    rw [AddNode, addNode, if_pos hex]

/-- Witness for `addNode_collision_noop`: re-adding `"node-a"`. -/
theorem addNode_collision_noop_witness :
    AddNode (New ["node-a", "node-b"]) "node-a" = New ["node-a", "node-b"] ∧
    ∀ y : String,
      (AddNode (AddNode (New ["node-a", "node-b"]) y) y).hashRing.length =
        (AddNode (New ["node-a", "node-b"]) y).hashRing.length :=
  addNode_collision_noop _ _ (by decide) (by decide)

/-- C5: `RemoveNode` is a no-op when the hash of the identifier is not a
key of the map; in general it removes exactly the binding of `hash x` from
the map and exactly the matching position from the sorted list, keeping the
remainder sorted and duplicate-free. -/
theorem removeNode_spec (h : ConsistentHash) (x : String) (hinv : Inv h) :
    (h.nodes.lookup (hashKey x) = none → RemoveNode h x = h) ∧
    (RemoveNode h x).nodes = h.nodes.filter (fun p => p.1 ≠ hashKey x) ∧
    (RemoveNode h x).hashRing = h.hashRing.filter (fun v => v ≠ hashKey x) ∧
    Inv (RemoveNode h x) := by
  obtain ⟨hs, hperm⟩ := hinv
  by_cases hex : (h.nodes.lookup (hashKey x)).isSome
  · refine ⟨fun habs => ?_, ?_, ?_, inv_RemoveNode ⟨hs, hperm⟩ x⟩
    · rw [habs] at hex; cases hex
    · rw [RemoveNode, if_pos hex]
    · rw [RemoveNode, if_pos hex]
      exact removeFirst_eq_filter (nodup_of_pairwise_lt hs)
  · have h0 : h.nodes.lookup (hashKey x) = none :=
      Option.not_isSome_iff_eq_none.mp hex
    have hnotkey : hashKey x ∉ h.nodes.map Prod.fst :=
      lookup_eq_none_iff.mp h0
    have hnoop : RemoveNode h x = h := by rw [RemoveNode, if_neg hex]
    refine ⟨fun _ => hnoop, ?_, ?_, by rw [hnoop]; exact ⟨hs, hperm⟩⟩
    · rw [hnoop]
      symm
      refine List.filter_eq_self.mpr (fun p hp => ?_)
      have : p.1 ∈ h.nodes.map Prod.fst := List.mem_map_of_mem Prod.fst hp
      simp only [ne_eq, decide_eq_true_eq]
      exact fun hpx => hnotkey (hpx ▸ this)
    · rw [hnoop]
      symm
      refine List.filter_eq_self.mpr (fun q hq => ?_)
      have : q ∈ h.nodes.map Prod.fst := hperm.mem_iff.mpr hq
      simp only [ne_eq, decide_eq_true_eq]
      exact fun hqx => hnotkey (hqx ▸ this)

/-- Witness for `removeNode_spec`: removing `"node-b"` and, through the
no-op conjunct, removing it a second time. -/
theorem removeNode_spec_witness :
    ((New ["node-a", "node-b"]).nodes.lookup (hashKey "node-c") = none →
      RemoveNode (New ["node-a", "node-b"]) "node-c" =
        New ["node-a", "node-b"]) ∧
    (RemoveNode (New ["node-a", "node-b"]) "node-c").nodes =
      (New ["node-a", "node-b"]).nodes.filter
        (fun p => p.1 ≠ hashKey "node-c") ∧
    (RemoveNode (New ["node-a", "node-b"]) "node-c").hashRing =
      (New ["node-a", "node-b"]).hashRing.filter
        (fun v => v ≠ hashKey "node-c") ∧
    Inv (RemoveNode (New ["node-a", "node-b"]) "node-c") :=
  removeNode_spec _ _ (by decide)


/-! ## The hash function claims -/

theorem crc32Step_lt {crc : Nat} (hc : crc < 2 ^ 32) :
    crc32Step crc < 2 ^ 32 := by
  rw [crc32Step]
  have hdiv : crc / 2 < 2 ^ 32 := lt_of_le_of_lt (Nat.div_le_self crc 2) hc
  by_cases hodd : crc % 2 = 1
  · rw [if_pos hodd]
    exact Nat.xor_lt_two_pow hdiv (by rw [crc32Poly]; norm_num)
  · rw [if_neg hodd]
    exact hdiv

theorem crc32Step_iterate_lt (n : Nat) {crc : Nat} (hc : crc < 2 ^ 32) :
    crc32Step^[n] crc < 2 ^ 32 := by
  induction n generalizing crc with
  | zero => simpa using hc
  | succ n ih =>
    rw [Function.iterate_succ_apply]
    exact ih (crc32Step_lt hc)

theorem crc32Byte_lt {crc : Nat} (b : Nat) (hc : crc < 2 ^ 32) :
    crc32Byte crc b < 2 ^ 32 := by
  rw [crc32Byte]
  refine crc32Step_iterate_lt 8 (Nat.xor_lt_two_pow hc ?_)
  exact lt_of_lt_of_le (Nat.mod_lt b (by norm_num)) (by norm_num)

theorem crc32_lt (bytes : List Nat) : crc32 bytes < 2 ^ 32 := by
  rw [crc32]
  refine Nat.xor_lt_two_pow ?_ (by norm_num)
  generalize hstart : (0xFFFFFFFF : Nat) = crc
  have hcrc : crc < 2 ^ 32 := by rw [← hstart]; norm_num
  clear hstart
  induction bytes generalizing crc with
  | nil => simpa using hcrc
  | cons b rest ih =>
    rw [List.foldl_cons]
    exact ih _ (crc32Byte_lt b hcrc)

/-- C6: The hash function is pure and deterministic (two evaluations on
the same string agree), computes exactly the CRC-32/IEEE checksum of the
UTF-8 bytes of its input, stays below `2^32` (a `uint32`), and on the
standard CRC-32 test vector `"123456789"` yields the IEEE check value
`0xCBF43926`. -/
theorem hashKey_deterministic_crc32 :
    (∀ s : String, hashKey s = hashKey s) ∧
    (∀ s : String, hashKey s = crc32 (strBytes s)) ∧
    (∀ s : String, hashKey s < 2 ^ 32) ∧
    hashKey "123456789" = 0xCBF43926 :=
  ⟨fun _ => rfl, fun _ => rfl, fun s => crc32_lt (strBytes s), by decide⟩

/-! ## Construction claim -/

theorem foldl_addNode_lookup (l : List String) :
    ∀ (h : ConsistentHash) (p : Nat),
      (l.foldl addNode h).nodes.lookup p =
        (h.nodes.lookup p).or (l.find? (fun id => hashKey id == p)) := by
  induction l with
  | nil => intro h p; simp
  | cons x xs ih =>
    intro h p
    rw [List.foldl_cons, ih, List.find?]
    by_cases hpx : hashKey x = p
    · have hbeq : (hashKey x == p) = true := beq_iff_eq.mpr hpx
      rw [hbeq]
      by_cases hex : (h.nodes.lookup (hashKey x)).isSome
      · rw [addNode, if_pos hex]
        obtain ⟨v, hv⟩ := Option.isSome_iff_exists.mp hex
        rw [hpx] at hv
        rw [hv]
        rfl
      · have h0 : h.nodes.lookup (hashKey x) = none :=
          Option.not_isSome_iff_eq_none.mp hex
        rw [addNode, if_neg hex]
        show ((h.nodes ++ [(hashKey x, x)]).lookup p).or _ = _
        rw [List.lookup_append, ← hpx, h0]
        simp [List.lookup]
    · have hbeq : (hashKey x == p) = false := beq_false_of_ne hpx
      rw [hbeq]
      by_cases hex : (h.nodes.lookup (hashKey x)).isSome
      · rw [addNode, if_pos hex]
      · rw [addNode, if_neg hex]
        show ((h.nodes ++ [(hashKey x, x)]).lookup p).or _ = _
        have hsingle : ([(hashKey x, x)].lookup p : Option String) = none := by
          have : (p == hashKey x) = false :=
            beq_false_of_ne (fun hc => hpx hc.symm)
          simp [List.lookup, this]
        rw [List.lookup_append, hsingle, Option.or_none]

/-- C8: `New` builds the ring by folding `addNode` over the identifier
list starting from the empty ring; the map stores, at each position, the
first identifier of the list hashing there (first-writer-wins dedup), and
the positions are exactly the hashes of the supplied identifiers. -/
theorem New_spec (nodeIDs : List String) :
    New nodeIDs = nodeIDs.foldl addNode { nodes := [], hashRing := [] } ∧
    (∀ p : Nat, (New nodeIDs).nodes.lookup p =
      nodeIDs.find? (fun id => hashKey id == p)) ∧
    (∀ p : Nat, p ∈ (New nodeIDs).hashRing ↔
      ∃ id ∈ nodeIDs, hashKey id = p) ∧
    Inv (New nodeIDs) := by
  refine ⟨rfl, fun p => ?_, fun p => ?_, inv_New nodeIDs⟩
  · rw [New, foldl_addNode_lookup]
    simp [List.lookup]
  · constructor
    · intro hp
      have hkey : p ∈ (New nodeIDs).nodes.map Prod.fst :=
        (inv_New nodeIDs).2.mem_iff.mpr hp
      have := lookup_isSome_iff.mpr hkey
      rw [New, foldl_addNode_lookup] at this
      simp only [List.lookup, Option.none_or] at this
      obtain ⟨id, hid, hpred⟩ := List.find?_isSome.mp this
      exact ⟨id, hid, beq_iff_eq.mp hpred⟩
    · rintro ⟨id, hid, hhash⟩
      have : (nodeIDs.find? (fun id => hashKey id == p)).isSome :=
        List.find?_isSome.mpr ⟨id, hid, beq_iff_eq.mpr hhash⟩
      have hsome : ((New nodeIDs).nodes.lookup p).isSome := by
        rw [New, foldl_addNode_lookup]
        simpa [List.lookup] using this
      exact (inv_New nodeIDs).2.mem_iff.mp (lookup_isSome_iff.mp hsome)


/-! ## Round-trip claim -/

theorem insertionSort_append_singleton {ring : List Nat} (a : Nat)
    (hs : ring.Pairwise (· < ·)) :
    (ring ++ [a]).insertionSort (· ≤ ·) =
      List.orderedInsert (· ≤ ·) a ring := by
  have hsorted : ring.Sorted (· ≤ ·) := hs.imp le_of_lt
  refine List.eq_of_perm_of_sorted ?_ (List.sorted_insertionSort _ _)
    (List.Sorted.orderedInsert a ring hsorted)
  refine (List.perm_insertionSort _ _).trans ?_
  refine (List.perm_append_singleton a ring).trans ?_
  exact (List.perm_orderedInsert _ a ring).symm

theorem removeFirst_orderedInsert {ring : List Nat} {a : Nat}
    (hnot : a ∉ ring) :
    removeFirst a (List.orderedInsert (· ≤ ·) a ring) = ring := by
  induction ring with
  | nil => simp [List.orderedInsert, removeFirst]
  | cons v rest ih =>
    rw [List.orderedInsert]
    by_cases hle : a ≤ v
    · rw [if_pos hle, removeFirst, if_pos rfl]
    · rw [if_neg hle, removeFirst,
        if_neg (fun hva : v = a => hle (le_of_eq hva.symm)),
        ih (fun hc => hnot (List.mem_cons_of_mem v hc))]

/-- C10: Adding a node whose hash is absent from the map and then
removing it returns the ring to exactly its original state (same map, same
sorted position list). -/
theorem add_remove_roundtrip (h : ConsistentHash) (x : String)
    (hinv : Inv h) (habs : h.nodes.lookup (hashKey x) = none) :
    RemoveNode (AddNode h x) x = h := by
  obtain ⟨nodes, ring⟩ := h
  obtain ⟨hs, hperm⟩ := hinv
  simp only at hs hperm habs
  have hnotkey : hashKey x ∉ nodes.map Prod.fst := lookup_eq_none_iff.mp habs
  have hnotring : hashKey x ∉ ring := fun hc => hnotkey (hperm.mem_iff.mpr hc)
  have hex : ¬(nodes.lookup (hashKey x)).isSome = true := by rw [habs]; simp
  rw [AddNode, addNode]
  simp only
  rw [if_neg hex, RemoveNode]
  simp only
  have hlook1 : (nodes ++ [(hashKey x, x)]).lookup (hashKey x) = some x := by
    rw [List.lookup_append, habs]
    simp [List.lookup]
  rw [if_pos (by rw [hlook1]; rfl)]
  have hnodes : (nodes ++ [(hashKey x, x)]).filter
      (fun p => p.1 ≠ hashKey x) = nodes := by
    rw [List.filter_append]
    have h2 : ([(hashKey x, x)] : List (Nat × String)).filter
        (fun p => p.1 ≠ hashKey x) = [] := by simp
    have h3 : nodes.filter (fun p => p.1 ≠ hashKey x) = nodes := by
      refine List.filter_eq_self.mpr (fun p hp => ?_)
      simp only [ne_eq, decide_eq_true_eq]
      exact fun hpx => hnotkey (hpx ▸ List.mem_map_of_mem Prod.fst hp)
    rw [h2, h3, List.append_nil]
  have hringeq : removeFirst (hashKey x)
      ((ring ++ [hashKey x]).insertionSort (· ≤ ·)) = ring := by
    rw [insertionSort_append_singleton _ hs, removeFirst_orderedInsert hnotring]
  simp only [ConsistentHash.mk.injEq]
  exact ⟨hnodes, hringeq⟩

/-- Witness for `add_remove_roundtrip`: add then remove `"node-c"` on a
two-node ring. -/
theorem add_remove_roundtrip_witness :
    RemoveNode (AddNode (New ["node-a", "node-b"]) "node-c") "node-c" =
      New ["node-a", "node-b"] :=
  add_remove_roundtrip _ _ (by decide) (by decide)


/-! ## Minimal-disruption claim -/

theorem isSucc_remove {hash hashB c : Nat} {ring ring' : List Nat}
    (hmem : ∀ q, q ∈ ring' ↔ q ∈ ring ∧ q ≠ hashB)
    (hB : IsSucc hash ring hashB)
    (hc : IsSucc hash ring' c) : IsSucc hashB ring' c := by
  obtain ⟨_, hdB⟩ := hB
  obtain ⟨hcc, hdc⟩ := hc
  refine ⟨hcc, ?_⟩
  rcases hdB with ⟨hleB, hminB⟩ | ⟨hallB, hminB⟩
  · rcases hdc with ⟨hlec, hminc⟩ | ⟨hallc, hminc⟩
    · exact Or.inl ⟨hminB c ((hmem c).mp hcc).1 hlec,
        fun q hq hBq => hminc q hq (le_trans hleB hBq)⟩
    · exact Or.inr ⟨fun q hq => lt_of_lt_of_le (hallc q hq) hleB, hminc⟩
  · rcases hdc with ⟨hlec, hminc⟩ | ⟨hallc, hminc⟩
    · exact absurd hlec (not_le_of_lt (hallB c ((hmem c).mp hcc).1))
    · exact Or.inl ⟨hminB c ((hmem c).mp hcc).1, fun q hq _ => hminc q hq⟩

/-- C7: Removing node `B` from a ring that also holds distinct positions
for nodes `A` and `C` never changes the lookup result of a key whose
selected successor position was not `B`'s (in particular one owned by `A`
or `C`); a key whose selected successor was `B`'s position is remapped to
the node owning `B`'s clockwise successor position (the node that now
serves `B`'s own hash). -/
theorem minimal_disruption (h : ConsistentHash) (A B C k : String)
    (hinv : Inv h)
    (hA : hashKey A ∈ h.hashRing) (hB : hashKey B ∈ h.hashRing)
    (hC : hashKey C ∈ h.hashRing)
    (hAB : hashKey A ≠ hashKey B) (hCB : hashKey C ≠ hashKey B) :
    ((selectedPos h k = some (hashKey A) ∨
        selectedPos h k = some (hashKey C)) →
      GetNode (RemoveNode h B) k = GetNode h k) ∧
    (selectedPos h k ≠ some (hashKey B) →
      GetNode (RemoveNode h B) k = GetNode h k) ∧
    (selectedPos h k = some (hashKey B) →
      ∃ c id, IsSucc (hashKey B) (RemoveNode h B).hashRing c ∧
        (RemoveNode h B).nodes.lookup c = some id ∧
        GetNode (RemoveNode h B) k = id ∧
        GetNode (RemoveNode h B) k = GetNode (RemoveNode h B) B) := by
  obtain ⟨hs, hperm⟩ := hinv
  have hne : h.hashRing ≠ [] := List.ne_nil_of_mem hB
  -- the state after the removal
  have hexB : ((h.nodes.lookup (hashKey B)).isSome : Prop) :=
    lookup_isSome_iff.mpr (hperm.mem_iff.mpr hB)
  have hnodes' : (RemoveNode h B).nodes =
      h.nodes.filter (fun p => p.1 ≠ hashKey B) := by
    rw [RemoveNode, if_pos hexB]
  have hring' : (RemoveNode h B).hashRing =
      h.hashRing.filter (fun v => v ≠ hashKey B) := by
    rw [RemoveNode, if_pos hexB]
    exact removeFirst_eq_filter (nodup_of_pairwise_lt hs)
  have hinv' : Inv (RemoveNode h B) := inv_RemoveNode ⟨hs, hperm⟩ B
  have hmem' : ∀ q, q ∈ (RemoveNode h B).hashRing ↔
      q ∈ h.hashRing ∧ q ≠ hashKey B := by
    intro q
    rw [hring', List.mem_filter]
    simp
  have hA' : hashKey A ∈ (RemoveNode h B).hashRing :=
    (hmem' _).mpr ⟨hA, hAB⟩
  have hne' : (RemoveNode h B).hashRing ≠ [] := List.ne_nil_of_mem hA'
  -- the selected positions before and after
  set c₀ := h.hashRing.getD (ringIndex h (hashKey k)) 0 with hc₀
  have hsel₀ : selectedPos h k = some c₀ := selectedPos_eq hne
  have hsucc₀ : IsSucc (hashKey k) h.hashRing c₀ := ringIndex_isSucc h _ hs hne
  set c₁ := (RemoveNode h B).hashRing.getD
    (ringIndex (RemoveNode h B) (hashKey k)) 0 with hc₁
  have hsucc₁ : IsSucc (hashKey k) (RemoveNode h B).hashRing c₁ :=
    ringIndex_isSucc _ _ hinv'.1 hne'
  -- the key parts
  have hmain : selectedPos h k ≠ some (hashKey B) →
      GetNode (RemoveNode h B) k = GetNode h k := by
    intro hdiff
    have hc0B : c₀ ≠ hashKey B := fun hcB => hdiff (by rw [hsel₀, hcB])
    have hsucc₀' : IsSucc (hashKey k) (RemoveNode h B).hashRing c₀ := by
      refine ⟨(hmem' c₀).mpr ⟨hsucc₀.1, hc0B⟩, ?_⟩
      rcases hsucc₀.2 with ⟨hle, hmin⟩ | ⟨hall, hmin⟩
      · exact Or.inl ⟨hle, fun q hq hhq => hmin q ((hmem' q).mp hq).1 hhq⟩
      · exact Or.inr ⟨fun q hq => hall q ((hmem' q).mp hq).1,
          fun q hq => hmin q ((hmem' q).mp hq).1⟩
    have hc10 : c₁ = c₀ := isSucc_unique hsucc₁ hsucc₀'
    rw [getNode_eq hne, getNode_eq hne', ← hc₀, ← hc₁, hc10, hnodes',
      lookup_filter_ne hc0B]
  refine ⟨?_, hmain, ?_⟩
  · rintro (hsA | hsC)
    · exact hmain (fun hcB => hAB (by
        have := hsA.symm.trans hcB
        exact Option.some.inj this))
    · exact hmain (fun hcB => hCB (by
        have := hsC.symm.trans hcB
        exact Option.some.inj this))
  · intro hselB
    have hc0B : c₀ = hashKey B :=
      Option.some.inj ((hsel₀.symm.trans hselB))
    have hsuccB : IsSucc (hashKey k) h.hashRing (hashKey B) := hc0B ▸ hsucc₀
    have hsuccB' : IsSucc (hashKey B) (RemoveNode h B).hashRing c₁ :=
      isSucc_remove hmem' hsuccB hsucc₁
    have hkey₁ : c₁ ∈ (RemoveNode h B).nodes.map Prod.fst :=
      hinv'.2.mem_iff.mpr hsucc₁.1
    obtain ⟨id, hid⟩ :=
      Option.isSome_iff_exists.mp (lookup_isSome_iff.mpr hkey₁)
    refine ⟨c₁, id, hsuccB', hid, ?_, ?_⟩
    · rw [getNode_eq hne', ← hc₁, hid]; rfl
    · set c₂ := (RemoveNode h B).hashRing.getD
        (ringIndex (RemoveNode h B) (hashKey B)) 0 with hc₂
      have hsucc₂ : IsSucc (hashKey B) (RemoveNode h B).hashRing c₂ :=
        ringIndex_isSucc _ _ hinv'.1 hne'
      have hc21 : c₂ = c₁ := isSucc_unique hsucc₂ hsuccB'
      rw [getNode_eq hne', getNode_eq hne', ← hc₁, ← hc₂, hc21]

/-- Witness for `minimal_disruption` on the spec's `{A, B, C}` scenario with
the representative key `"user-123"`. -/
theorem minimal_disruption_witness :
    ((selectedPos (New ["node-a", "node-b", "node-c"]) "user-123" =
        some (hashKey "node-a") ∨
      selectedPos (New ["node-a", "node-b", "node-c"]) "user-123" =
        some (hashKey "node-c")) →
      GetNode (RemoveNode (New ["node-a", "node-b", "node-c"]) "node-b")
          "user-123" =
        GetNode (New ["node-a", "node-b", "node-c"]) "user-123") ∧
    (selectedPos (New ["node-a", "node-b", "node-c"]) "user-123" ≠
        some (hashKey "node-b") →
      GetNode (RemoveNode (New ["node-a", "node-b", "node-c"]) "node-b")
          "user-123" =
        GetNode (New ["node-a", "node-b", "node-c"]) "user-123") ∧
    (selectedPos (New ["node-a", "node-b", "node-c"]) "user-123" =
        some (hashKey "node-b") →
      ∃ c id, IsSucc (hashKey "node-b")
          (RemoveNode (New ["node-a", "node-b", "node-c"]) "node-b").hashRing
          c ∧
        (RemoveNode (New ["node-a", "node-b", "node-c"]) "node-b").nodes.lookup
            c = some id ∧
        GetNode (RemoveNode (New ["node-a", "node-b", "node-c"]) "node-b")
            "user-123" = id ∧
        GetNode (RemoveNode (New ["node-a", "node-b", "node-c"]) "node-b")
            "user-123" =
          GetNode (RemoveNode (New ["node-a", "node-b", "node-c"]) "node-b")
            "node-b") :=
  minimal_disruption _ "node-a" "node-b" "node-c" _ (by decide) (by decide)
    (by decide) (by decide) (by decide) (by decide)

end ConsistentHashRing
